import Mathlib

/-!
Verification of the `recuerdame` `precalculate` macro (src/recuerdame-macros/src/lib.rs).

The macro, applied to a function `f` with per-parameter inclusive ranges, emits:
  * per-parameter constants `MIN`, `MAX` and
    `SIZE : usize = (MAX as isize - MIN as isize + 1) as usize`;
  * a nested-array lookup table, one dimension per parameter (outermost = first
    declared parameter), filled by a nest of `while` loops
    (`let v = MIN + idx as ty; table[a_idx][b_idx].. = f(..)`);
  * an accessor that computes `idx = (v - MIN) as usize` per parameter, evaluates
    the compound bounds predicate `MIN <= v && v <= MAX && .. && true` in the
    `option` and `keep` modes, and indexes the table.

This file models the generated program.  Parameter values are mathematical
integers (`Int`); the machine-arithmetic parts of the expansion (the `isize`
casts in the `SIZE` constant and the in-type subtraction of the accessor's index
computation) are modelled separately with explicit two's-complement wrap-around
(`castTy`, `castUsize`, `sizeConstM`, `mIdx`).  A table lookup that would index
out of bounds is modelled as `none` (the runtime fault); accessors return
`none` for a fault, `some r` for a normal return.
-/

namespace Recuerdame

/-- Declared inclusive range of one parameter: the mathematical values of the
`MIN` and `MAX` constants (`*range.start()`, `*range.end()`). -/
structure Param where
  min : Int
  max : Int
deriving DecidableEq, Repr

/-- The true cardinality of a declared range, `max - min + 1` (clamped at 0 for
an empty range).  The emitted `SIZE` constant is intended to equal this. -/
def idealSize (p : Param) : Nat := (p.max - p.min + 1).toNat

/-- The nested-array table type: one list layer per dimension, outermost layer
first, element type the bare return type `V` (mirrors the `.rev().fold` that
wraps `[inner; SIZE]` so the first declared parameter is the outermost array). -/
def TShape (V : Type) : List Nat → Type
  | [] => V
  | _ :: rest => List (TShape V rest)

/-- The table produced by `[[PrecalcConst::DEFAULT; ..]; ..]`: every slot holds
the default value `d`. -/
def initT {V : Type} (d : V) : (sizes : List Nat) → TShape V sizes
  | [] => d
  | s :: rest => List.replicate s (initT d rest)

/-- Indexing `table[i1][i2]..`, first coordinate into the outermost dimension.
`none` models the out-of-bounds fault. -/
def getT {V : Type} : (sizes : List Nat) → TShape V sizes → List Nat → Option V
  | [], v, [] => some v
  | [], _, _ :: _ => none
  | _ :: rest, t, i :: c =>
      if h : i < List.length t then getT rest (List.get t ⟨i, h⟩) c else none
  | _ :: _, _, [] => none

/-- Replace the element at one position of a list (no-op out of range). -/
def modifyIdx {α : Type} : List α → Nat → (α → α) → List α
  | [], _, _ => []
  | a :: l, 0, g => g a :: l
  | a :: l, Nat.succ i, g => a :: modifyIdx l i g

/-- Assignment `table[i1][i2].. = v` (no-op if the coordinate is malformed). -/
def setT {V : Type} : (sizes : List Nat) → TShape V sizes → List Nat → V → TShape V sizes
  | [], _, [], v => v
  | [], t, _ :: _, _ => t
  | _ :: rest, t, i :: c, v => modifyIdx t i (fun sub => setT rest sub c v)
  | _ :: _, t, [], _ => t

/-- Each list layer of the table has exactly the length announced by `sizes`
(true of the emitted `[[..; SIZE]; SIZE]` value by construction). -/
def shapeOk {V : Type} : (sizes : List Nat) → TShape V sizes → Prop
  | [], _ => True
  | s :: rest, t => List.length t = s ∧ ∀ sub ∈ (show List (TShape V rest) from t), shapeOk rest sub

/-- Componentwise bound check of a coordinate against the dimension sizes. -/
def inB : List Nat → List Nat → Bool
  | [], [] => true
  | i :: c, s :: rest => decide (i < s) && inB c rest
  | _, _ => false

/-- Folding a sequence of table writes `table[c] = g c` over a list of
coordinates, in order. -/
def wfold {V : Type} (sizes : List Nat) (g : List Nat → V) (t : TShape V sizes)
    (L : List (List Nat)) : TShape V sizes :=
  L.foldl (fun acc c => setT sizes acc c (g c)) t

/-- The sequence of coordinates visited by the nest of `while` loops, in
iteration order: one `usize` counter per dimension, starting at 0, incremented
by 1, bounded by the dimension's `SIZE`; the first declared parameter is the
outermost loop. -/
def enumW : List Nat → List (List Nat)
  | [] => [[]]
  | s :: rest => (List.range s).flatMap fun j => (enumW rest).map fun c => j :: c

/-- The `generate_table` loop nest, translated structurally: for each dimension
`(MIN, SIZE)` in declaration order a counting loop `idx = 0; while idx < SIZE`,
and at the innermost level the reconstruction `v = MIN + idx` of every
argument followed by the write `table[a_idx][b_idx].. = f(a, b, ..)`.
`pre`/`vacc` accumulate the outer loops' indices and argument values. -/
def fill {V : Type} (f : List Int → V) {sizes : List Nat} :
    (dims : List (Int × Nat)) → List Nat → List Int → TShape V sizes → TShape V sizes
  | [], pre, vacc, t => setT sizes t pre (f vacc)
  | (m, s) :: rest, pre, vacc, t =>
      (List.range s).foldl
        (fun acc (j : Nat) => fill f rest (pre ++ [j]) (vacc ++ [m + (j : Int)]) acc) t

/-- Argument values reconstructed from a coordinate: `MIN + idx` per dimension. -/
def dvals (dims : List (Int × Nat)) (c : List Nat) : List Int :=
  List.zipWith (fun p j => p.1 + (j : Int)) dims c

/-- `generate_table()`: start from the all-default table and run the loop nest. -/
def genTable {V : Type} (d : V) (f : List Int → V) (dims : List (Int × Nat)) :
    TShape V (dims.map Prod.snd) :=
  fill f dims [] [] (initT d (dims.map Prod.snd))

/-- The compound bounds predicate of the accessor:
`A_MIN <= a && a <= A_MAX && B_MIN <= b && .. && true`, one conjunct pair per
parameter in declaration order. -/
def boundsCheck (ps : List Param) (vs : List Int) : Bool :=
  (List.zip ps vs).foldr
    (fun pv acc => (decide (pv.1.min ≤ pv.2) && decide (pv.2 ≤ pv.1.max)) && acc) true

/-- The accessor's index computation `let v_idx = (v - V_MIN) as usize`, with
exact integer arithmetic (the wrap-accurate version is `mIdx` below). -/
def idxs (ps : List Param) (vs : List Int) : List Nat :=
  List.zipWith (fun p v => (v - p.min).toNat) ps vs

/-- Pair each parameter's `MIN` constant with its `SIZE` constant, in
declaration order: the data the loop nest and the table dimensions consume. -/
def dimsOf (ps : List Param) (sizes : List Nat) : List (Int × Nat) :=
  List.zipWith (fun p s => (p.min, s)) ps sizes

/-- `Basic`-mode accessor: no bounds check, straight table indexing.
`none` models the out-of-bounds panic. -/
def basicAcc {V : Type} (d : V) (f : List Int → V) (ps : List Param) (sizes : List Nat)
    (vs : List Int) : Option V :=
  getT ((dimsOf ps sizes).map Prod.snd) (genTable d f (dimsOf ps sizes)) (idxs ps vs)

/-- `Option`-mode accessor: `if !(bounds) { return None } .. Some(table[..])`.
Outer `none` models a panic, `some none` the `None` return, `some (some r)`
the `Some r` return. -/
def optionAcc {V : Type} (d : V) (f : List Int → V) (ps : List Param) (sizes : List Nat)
    (vs : List Int) : Option (Option V) :=
  if boundsCheck ps vs then (basicAcc d f ps sizes vs).map some else some none

/-- `Keep`-mode accessor: `if !(bounds) { return _f_original(..) } .. table[..]`. -/
def keepAcc {V : Type} (d : V) (f : List Int → V) (ps : List Param) (sizes : List Nat)
    (vs : List Int) : Option V :=
  if boundsCheck ps vs then basicAcc d f ps sizes vs else some (f vs)

/-- Per-parameter conjunct of the bounds predicate: `MIN <= v && v <= MAX`. -/
def inRangeP (p : Param) (v : Int) : Bool := decide (p.min ≤ v) && decide (v ≤ p.max)

/-- Smallest value of a `w`-bit machine integer type (`s` = signedness). -/
def tyMinI (w : Nat) (s : Bool) : Int := if s then -((2 : Int) ^ (w - 1)) else 0

/-- Largest value of a `w`-bit machine integer type. -/
def tyMaxI (w : Nat) (s : Bool) : Int := if s then (2 : Int) ^ (w - 1) - 1 else (2 : Int) ^ w - 1

/-- A value is representable in the `w`-bit type. -/
def inTy (w : Nat) (s : Bool) (v : Int) : Prop := tyMinI w s ≤ v ∧ v ≤ tyMaxI w s

instance instDecidableInTy (w : Nat) (s : Bool) (v : Int) : Decidable (inTy w s v) := by
  unfold inTy
  infer_instance

/-- Rust integer `as` cast into a `w`-bit type: truncate to `w` bits and
reinterpret two's-complement when the target is signed.  `as` casts between
integer types never fail in Rust; they wrap. -/
def castTy (w : Nat) (s : Bool) (n : Int) : Int :=
  if s && decide ((2 : Int) ^ (w - 1) ≤ n % (2 : Int) ^ w) then
    n % (2 : Int) ^ w - (2 : Int) ^ w
  else n % (2 : Int) ^ w

/-- Rust `as usize` on a 64-bit platform. -/
def castUsize (n : Int) : Nat := (n % (2 : Int) ^ 64).toNat

/-- A parameter as typed in the generated program: its machine type (width and
signedness) and the mathematical values of the declared range endpoints. -/
structure MParam where
  w : Nat
  signed : Bool
  min : Int
  max : Int
deriving DecidableEq, Repr

/-- The emitted `SIZE` constant,
`(MAX as isize - MIN as isize + 1) as usize`, on a 64-bit platform.
The two casts to `isize` wrap silently; the `-` and `+` run during const
evaluation, where arithmetic overflow is a compile error, modelled as `none`. -/
def sizeConstM (p : MParam) : Option Nat :=
  if inTy 64 true (castTy 64 true p.max - castTy 64 true p.min) then
    (if inTy 64 true (castTy 64 true p.max - castTy 64 true p.min + 1) then
      some (castUsize (castTy 64 true p.max - castTy 64 true p.min + 1))
    else none)
  else none

/-- The accessor's machine index `(v - MIN) as usize`: the subtraction runs in
the parameter's type (wrapping in release builds), then is cast to `usize`. -/
def mDx (p : MParam) (v : Int) : Nat := castUsize (castTy p.w p.signed (v - p.min))

/-- The in-type subtraction `v - MIN` neither underflows nor overflows the
parameter's type. -/
def subOk (p : MParam) (v : Int) : Prop := inTy p.w p.signed (v - p.min)

/-- Const evaluation of `generate_table` succeeds for this dimension: at every
loop step the argument reconstruction `MIN + (idx as ty)` stays inside the
parameter's type.  If it does not, the expansion is a compile error and no
accessor exists. -/
def buildOkM (p : MParam) (sz : Nat) : Prop :=
  ∀ j : Nat, j < sz → inTy p.w p.signed (p.min + castTy p.w p.signed (j : Int))

/-- Forget the machine type of a parameter. -/
def toParam (p : MParam) : Param := ⟨p.min, p.max⟩

/-- A well-formed parameter declaration: positive width, both endpoints
representable in the parameter's type (they are typed constants of it), and a
nonempty range. -/
def wfP (p : MParam) : Prop :=
  1 ≤ p.w ∧ inTy p.w p.signed p.min ∧ inTy p.w p.signed p.max ∧ p.min ≤ p.max

instance instDecidableWfP (p : MParam) : Decidable (wfP p) := by
  unfold wfP
  infer_instance

instance instDecidableBuildOkM (p : MParam) (sz : Nat) : Decidable (buildOkM p sz) := by
  unfold buildOkM
  infer_instance

instance instDecidableSubOk (p : MParam) (v : Int) : Decidable (subOk p v) := by
  unfold subOk
  infer_instance

/-- Type expressions occurring in the expansion: the original return type,
array layers `[T; SIZE]` and `Option<T>`. -/
inductive RTy where
  | base : Nat → RTy
  | arr : RTy → Nat → RTy
  | opt : RTy → RTy
deriving DecidableEq, Repr

/-- The three operating modes, fixed at expansion time. -/
inductive Mode where
  | basic
  | modeOpt
  | modeKeep
deriving DecidableEq, Repr

/-- `table_type`: fold `[inner; SIZE]` over the parameters in reverse order, so
the first declared parameter's `SIZE` becomes the outermost array length. -/
def tableTypeOf (sizes : List Nat) (r : RTy) : RTy :=
  sizes.foldr (fun s t => RTy.arr t s) r

/-- The two type outputs of the expansion in source order: `table_type` is
built from the original return type first; only afterwards does `Option` mode
rewrite the accessor's declared return type. -/
def expandTys (mode : Mode) (sizes : List Nat) (ret : RTy) : RTy × RTy :=
  (tableTypeOf sizes ret, if mode = Mode.modeOpt then RTy.opt ret else ret)

/-- Strip `n` array layers off a type expression. -/
def stripArr : Nat → RTy → Option RTy
  | 0, t => some t
  | n + 1, RTy.arr t _ => stripArr n t
  | _ + 1, RTy.base _ => none
  | _ + 1, RTy.opt _ => none

/-- One entry of the attribute payload, as the parsing loop classifies `Meta`:
a `name = value` pair (key kept as its path segments), a bare path rendered to
the string the code matches on, or any other meta form, which the loop's
wildcard arm silently skips. -/
inductive MetaArg (A : Type) where
  | nameValue : List String → A → MetaArg A
  | flag : String → MetaArg A
  | other : MetaArg A
deriving DecidableEq

/-- `Path::get_ident`: only a single-segment path is an identifier. -/
def getIdent : List String → Option String
  | [s] => some s
  | _ => none

/-- Expansion-time configuration failures raised while parsing the payload. -/
inductive CfgErr where
  | keyNotIdent
  | dupKey : String → CfgErr
  | unknownOption : String → CfgErr
  | exclusiveFlags
deriving DecidableEq, Repr

/-- The attribute parsing loop: `name = value` inserts into the range map,
panicking on a non-identifier key or a duplicate; a bare path sets the
`option` or `keep` flag or panics as unknown; other meta forms are skipped. -/
def parseLoop {A : Type} :
    List (MetaArg A) → List (String × A) → Bool → Bool →
      Except CfgErr (List (String × A) × Bool × Bool)
  | [], acc, ho, hk => .ok (acc, ho, hk)
  | .nameValue p v :: rest, acc, ho, hk =>
      match getIdent p with
      | none => .error .keyNotIdent
      | some k =>
          if (acc.lookup k).isSome then .error (.dupKey k)
          else parseLoop rest (acc ++ [(k, v)]) ho hk
  | .flag s :: rest, acc, ho, hk =>
      if s = "option" then parseLoop rest acc true hk
      else if s = "keep" then parseLoop rest acc ho true
      else .error (.unknownOption s)
  | .other :: rest, acc, ho, hk => parseLoop rest acc ho hk

/-- The declaration parser: the loop over the payload followed by the
`option`/`keep` mutual-exclusion check, producing the range map and the mode. -/
def parseAttr {A : Type} (items : List (MetaArg A)) :
    Except CfgErr (List (String × A) × Mode) :=
  match parseLoop items [] false false with
  | .error e => .error e
  | .ok (m, ho, hk) =>
      if ho && hk then .error .exclusiveFlags
      else .ok (m, if ho then Mode.modeOpt else if hk then Mode.modeKeep else Mode.basic)

/-- The identifier keys of the `name = value` entries, in order. -/
def namesOf {A : Type} (items : List (MetaArg A)) : List String :=
  items.filterMap fun it => match it with
    | .nameValue p _ => getIdent p
    | _ => none

/-- The rendered strings of the bare path entries, in order. -/
def flagsOf {A : Type} (items : List (MetaArg A)) : List String :=
  items.filterMap fun it => match it with
    | .flag s => some s
    | _ => none

/-- The key/value pairs of the `name = value` entries, in order. -/
def pairsOf {A : Type} (items : List (MetaArg A)) : List (String × A) :=
  items.filterMap fun it => match it with
    | .nameValue p v => (getIdent p).map fun k => (k, v)
    | _ => none

/-- Some bare flag is neither `option` nor `keep`. -/
def hasUnknown {A : Type} (items : List (MetaArg A)) : Bool :=
  (flagsOf items).any fun s => !(s == "option") && !(s == "keep")

/-- Both the `option` and the `keep` flag occur. -/
def hasBoth {A : Type} (items : List (MetaArg A)) : Bool :=
  (flagsOf items).contains "option" && (flagsOf items).contains "keep"

/-- Every `name = value` key of the payload is a plain identifier. -/
def keysOk {A : Type} (items : List (MetaArg A)) : Bool :=
  items.all fun it => match it with
    | MetaArg.nameValue p _ => (getIdent p).isSome
    | _ => true

/-- The mode selected by the flags present (when not mutually exclusive). -/
def modeOf {A : Type} (items : List (MetaArg A)) : Mode :=
  if (flagsOf items).contains "option" then Mode.modeOpt
  else if (flagsOf items).contains "keep" then Mode.modeKeep
  else Mode.basic

/-- Failure of the signature-binding loop. -/
inductive BindErr where
  | missingRange : String → BindErr
deriving DecidableEq, Repr

/-- The `arg_info` loop: for each parameter (name, type) in signature order,
look its range up by name; a parameter with no range panics, naming it;
range entries matching no parameter are never consulted. -/
def bindArgs {A B : Type} (rmap : List (String × A)) :
    List (String × B) → Except BindErr (List (String × B × A))
  | [] => .ok []
  | (n, ty) :: rest =>
      match rmap.lookup n with
      | some r =>
          match bindArgs rmap rest with
          | .ok tl => .ok ((n, ty, r) :: tl)
          | .error e => .error e
      | none => .error (.missingRange n)

/-- The first parameter with no declared range, in signature order. -/
def firstUnbound {A B : Type} (rmap : List (String × A)) :
    List (String × B) → Option String
  | [] => none
  | (n, _) :: rest => if (rmap.lookup n).isSome then firstUnbound rmap rest else some n

/-- Sum of a list of integers; a sample original function for witnesses. -/
def addF : List Int → Int := fun vs => vs.foldl (fun a b => a + b) 0

/-- Head of an integer list (0 when empty); a sample original function. -/
def headF : List Int → Int := fun vs => vs.headI

theorem initT_shapeOk {V : Type} (d : V) (sizes : List Nat) : shapeOk sizes (initT d sizes) := by
  induction sizes with
  | nil => trivial
  | cons s rest ih =>
      refine ⟨List.length_replicate s _, ?_⟩
      intro sub hsub
      rw [List.eq_of_mem_replicate hsub]
      exact ih

theorem modifyIdx_length {α : Type} (l : List α) (i : Nat) (g : α → α) :
    (modifyIdx l i g).length = l.length := by
  induction l generalizing i with
  | nil => rfl
  | cons a l ih => cases i with
    | zero => rfl
    | succ i => simp [modifyIdx, ih]

theorem modifyIdx_eq_of_le {α : Type} (l : List α) (i : Nat) (g : α → α)
    (h : l.length ≤ i) : modifyIdx l i g = l := by
  induction l generalizing i with
  | nil => rfl
  | cons a l ih => cases i with
    | zero => simp at h
    | succ i =>
        simp only [List.length_cons, Nat.succ_le_succ_iff] at h
        simp [modifyIdx, ih i h]

theorem modifyIdx_get_self {α : Type} (l : List α) (i : Nat) (g : α → α)
    (h : i < l.length) (h2 : i < (modifyIdx l i g).length) :
    List.get (modifyIdx l i g) ⟨i, h2⟩ = g (List.get l ⟨i, h⟩) := by
  induction l generalizing i with
  | nil => simp at h
  | cons a l ih => cases i with
    | zero => rfl
    | succ i =>
        simp only [List.length_cons, Nat.succ_lt_succ_iff] at h
        exact ih i h (by simpa [modifyIdx, modifyIdx_length] using h)

theorem modifyIdx_get_ne {α : Type} (l : List α) (i j : Nat) (g : α → α)
    (hne : j ≠ i) (h : j < l.length) (h2 : j < (modifyIdx l i g).length) :
    List.get (modifyIdx l i g) ⟨j, h2⟩ = List.get l ⟨j, h⟩ := by
  induction l generalizing i j with
  | nil => simp at h
  | cons a l ih =>
      cases i with
      | zero => cases j with
        | zero => exact absurd rfl hne
        | succ j => rfl
      | succ i => cases j with
        | zero => rfl
        | succ j =>
            simp only [List.length_cons, Nat.succ_lt_succ_iff] at h
            exact ih i j (fun hj => hne (by simp [hj]))
              h (by simpa [modifyIdx, modifyIdx_length] using h)

theorem modifyIdx_mem {α : Type} (l : List α) (i : Nat) (g : α → α) (x : α)
    (hx : x ∈ modifyIdx l i g) : x ∈ l ∨ ∃ y ∈ l, x = g y := by
  induction l generalizing i with
  | nil => simp [modifyIdx] at hx
  | cons a l ih =>
      cases i with
      | zero =>
          rcases List.mem_cons.mp hx with h | h
          · exact Or.inr ⟨a, List.mem_cons_self a l, h⟩
          · exact Or.inl (List.mem_cons_of_mem a h)
      | succ i =>
          rcases List.mem_cons.mp hx with h | h
          · exact Or.inl (h ▸ List.mem_cons_self a l)
          · rcases ih i h with h | ⟨y, hy, hxy⟩
            · exact Or.inl (List.mem_cons_of_mem a h)
            · exact Or.inr ⟨y, List.mem_cons_of_mem a hy, hxy⟩

theorem setT_shapeOk {V : Type} (sizes : List Nat) (t : TShape V sizes)
    (c : List Nat) (v : V) (ht : shapeOk sizes t) : shapeOk sizes (setT sizes t c v) := by
  induction sizes generalizing c with
  | nil => cases c <;> trivial
  | cons s rest ih =>
      cases c with
      | nil => exact ht
      | cons i c =>
          obtain ⟨hlen, hmem⟩ := ht
          refine ⟨by rw [show setT (s :: rest) t (i :: c) v =
            modifyIdx t i (fun sub => setT rest sub c v) from rfl,
            modifyIdx_length]; exact hlen, ?_⟩
          intro sub hsub
          rcases modifyIdx_mem _ _ _ _ hsub with h | ⟨y, hy, hxy⟩
          · exact hmem sub h
          · rw [hxy]; exact ih y c (hmem y hy)

theorem getT_setT_self {V : Type} (sizes : List Nat) (t : TShape V sizes)
    (c : List Nat) (v : V) (ht : shapeOk sizes t) (hc : inB c sizes = true) :
    getT sizes (setT sizes t c v) c = some v := by
  induction sizes generalizing c with
  | nil =>
      cases c with
      | nil => rfl
      | cons i c => simp [inB] at hc
  | cons s rest ih =>
      cases c with
      | nil => simp [inB] at hc
      | cons i c =>
          obtain ⟨hi, hc⟩ := by simpa [inB, Bool.and_eq_true] using hc
          obtain ⟨hlen, hmem⟩ := ht
          have hilen : i < List.length t := by rw [hlen]; exact hi
          have hilen2 : i < (modifyIdx t i (fun sub => setT rest sub c v)).length := by
            rw [modifyIdx_length]; exact hilen
          show getT (s :: rest) (modifyIdx t i (fun sub => setT rest sub c v)) (i :: c) = some v
          rw [show getT (s :: rest) (modifyIdx t i (fun sub => setT rest sub c v)) (i :: c) =
            if h : i < (modifyIdx t i (fun sub => setT rest sub c v)).length then
              getT rest (List.get _ ⟨i, h⟩) c else none from rfl]
          rw [dif_pos hilen2, modifyIdx_get_self t i _ hilen hilen2]
          exact ih _ c (hmem _ (List.get_mem t i hilen)) hc

theorem getT_setT_ne {V : Type} (sizes : List Nat) (t : TShape V sizes)
    (c c2 : List Nat) (v : V) (hne : c2 ≠ c) :
    getT sizes (setT sizes t c v) c2 = getT sizes t c2 := by
  induction sizes generalizing c c2 with
  | nil =>
      cases c with
      | nil => cases c2 with
        | nil => exact absurd rfl hne
        | cons j c2 => rfl
      | cons i c => rfl
  | cons s rest ih =>
      cases c with
      | nil => rfl
      | cons i c =>
          cases c2 with
          | nil => rfl
          | cons j c2 =>
              show getT (s :: rest) (modifyIdx t i (fun sub => setT rest sub c v)) (j :: c2) = _
              by_cases hij : j = i
              · subst hij
                have hcc : c2 ≠ c := fun h => hne (by rw [h])
                by_cases hl : j < List.length t
                · have hl2 : j < (modifyIdx t j (fun sub => setT rest sub c v)).length := by
                    rw [modifyIdx_length]; exact hl
                  rw [show getT (s :: rest) (modifyIdx t j (fun sub => setT rest sub c v)) (j :: c2) =
                    if h : j < (modifyIdx t j (fun sub => setT rest sub c v)).length then
                      getT rest (List.get _ ⟨j, h⟩) c2 else none from rfl]
                  rw [dif_pos hl2, modifyIdx_get_self t j _ hl hl2]
                  rw [show getT (s :: rest) t (j :: c2) =
                    if h : j < List.length t then getT rest (List.get t ⟨j, h⟩) c2 else none from rfl]
                  rw [dif_pos hl]
                  exact ih _ c c2 hcc
                · rw [modifyIdx_eq_of_le t j _ (Nat.le_of_not_lt hl)]
              · by_cases hl : j < List.length t
                · have hl2 : j < (modifyIdx t i (fun sub => setT rest sub c v)).length := by
                    rw [modifyIdx_length]; exact hl
                  rw [show getT (s :: rest) (modifyIdx t i (fun sub => setT rest sub c v)) (j :: c2) =
                    if h : j < (modifyIdx t i (fun sub => setT rest sub c v)).length then
                      getT rest (List.get _ ⟨j, h⟩) c2 else none from rfl]
                  rw [dif_pos hl2, modifyIdx_get_ne t i j _ hij hl hl2]
                  rw [show getT (s :: rest) t (j :: c2) =
                    if h : j < List.length t then getT rest (List.get t ⟨j, h⟩) c2 else none from rfl]
                  rw [dif_pos hl]
                · have hl2 : ¬ j < (modifyIdx t i (fun sub => setT rest sub c v)).length := by
                    rw [modifyIdx_length]; exact hl
                  rw [show getT (s :: rest) (modifyIdx t i (fun sub => setT rest sub c v)) (j :: c2) =
                    if h : j < (modifyIdx t i (fun sub => setT rest sub c v)).length then
                      getT rest (List.get _ ⟨j, h⟩) c2 else none from rfl]
                  rw [show getT (s :: rest) t (j :: c2) =
                    if h : j < List.length t then getT rest (List.get t ⟨j, h⟩) c2 else none from rfl]
                  rw [dif_neg hl2, dif_neg hl]

theorem wfold_shapeOk {V : Type} (sizes : List Nat) (g : List Nat → V) (t : TShape V sizes)
    (L : List (List Nat)) (ht : shapeOk sizes t) : shapeOk sizes (wfold sizes g t L) := by
  induction L generalizing t with
  | nil => exact ht
  | cons c L ih => exact ih _ (setT_shapeOk sizes t c (g c) ht)

theorem getT_wfold_not_mem {V : Type} (sizes : List Nat) (g : List Nat → V)
    (t : TShape V sizes) (L : List (List Nat)) (c : List Nat) (hc : c ∉ L) :
    getT sizes (wfold sizes g t L) c = getT sizes t c := by
  induction L generalizing t with
  | nil => rfl
  | cons c0 L ih =>
      have h1 : c ∉ L := fun h => hc (List.mem_cons_of_mem c0 h)
      have h2 : c ≠ c0 := fun h => hc (h ▸ List.mem_cons_self c0 L)
      rw [show wfold sizes g t (c0 :: L) = wfold sizes g (setT sizes t c0 (g c0)) L from rfl,
        ih _ h1, getT_setT_ne sizes t c0 c (g c0) h2]

theorem getT_wfold_count_one {V : Type} (sizes : List Nat) (g : List Nat → V)
    (t : TShape V sizes) (L : List (List Nat)) (c : List Nat)
    (ht : shapeOk sizes t) (hL : ∀ c2 ∈ L, inB c2 sizes = true)
    (hcount : L.count c = 1) : getT sizes (wfold sizes g t L) c = some (g c) := by
  induction L generalizing t with
  | nil => simp [List.count_nil] at hcount
  | cons c0 L ih =>
      rw [show wfold sizes g t (c0 :: L) = wfold sizes g (setT sizes t c0 (g c0)) L from rfl]
      by_cases hcc : c = c0
      · subst hcc
        have hz : L.count c = 0 := by
          simp only [List.count_cons_self] at hcount
          omega
        rw [getT_wfold_not_mem sizes g _ L c (List.count_eq_zero.mp hz)]
        exact getT_setT_self sizes t c (g c) ht (hL c (List.mem_cons_self c L))
      · have h1 : L.count c = 1 := by
          simpa [List.count_cons, hcc] using hcount
        exact ih _ (setT_shapeOk sizes t c0 (g c0) ht)
          (fun c2 h => hL c2 (List.mem_cons_of_mem c0 h)) h1

theorem count_cons_map (j i : Nat) (c : List Nat) (L : List (List Nat)) :
    (L.map fun c2 => j :: c2).count (i :: c) = if j = i then L.count c else 0 := by
  induction L with
  | nil => simp [List.count_nil]
  | cons c0 L ih =>
      rcases eq_or_ne j i with hji | hji
      · subst hji
        rcases eq_or_ne c c0 with hc | hc
        · subst hc
          simp [List.map_cons, List.count_cons, ih]
        · simp [List.map_cons, List.count_cons, ih, hc]
      · simp [List.map_cons, List.count_cons, ih, hji, Ne.symm hji]

theorem count_flatMap (l : List Nat) (h : Nat → List (List Nat)) (b : List Nat) :
    (l.flatMap h).count b = (l.map fun a => (h a).count b).sum := by
  induction l with
  | nil => rfl
  | cons a l ih => simp [List.flatMap_cons, List.count_append, ih]

theorem sum_ite_range (s i : Nat) (a : Nat) :
    ((List.range s).map fun j => if j = i then a else 0).sum = if i < s then a else 0 := by
  induction s with
  | zero => simp
  | succ s ih =>
      rw [List.range_succ, List.map_append, List.sum_append, ih]
      rcases eq_or_ne s i with he | he
      · subst he
        simp [Nat.lt_irrefl, Nat.lt_succ_self]
      · by_cases hi : i < s
        · simp [he, hi, Nat.lt_succ_of_lt hi]
        · have h2 : ¬ i < s + 1 := by omega
          simp [he, hi, h2]

/-- Each in-bounds coordinate appears exactly once in the loop nest's iteration
sequence; out-of-bounds coordinates never appear. -/
theorem count_enumW (sizes : List Nat) (c : List Nat) :
    (enumW sizes).count c = if inB c sizes = true then 1 else 0 := by
  induction sizes generalizing c with
  | nil =>
      cases c with
      | nil => simp [enumW, inB]
      | cons i c => simp [enumW, inB, List.count_cons, List.count_nil]
  | cons s rest ih =>
      cases c with
      | nil =>
          have : [] ∉ enumW (s :: rest) := by
            intro h
            rw [show enumW (s :: rest) =
              (List.range s).flatMap (fun j => (enumW rest).map fun c => j :: c) from rfl] at h
            obtain ⟨j, _, hj⟩ := List.mem_flatMap.mp h
            obtain ⟨c2, _, hc2⟩ := List.mem_map.mp hj
            exact List.cons_ne_nil j c2 hc2
          rw [List.count_eq_zero.mpr this]
          simp [inB]
      | cons i c =>
          rw [show enumW (s :: rest) =
            (List.range s).flatMap (fun j => (enumW rest).map fun c => j :: c) from rfl,
            count_flatMap]
          have : ((List.range s).map fun j => ((enumW rest).map fun c2 => j :: c2).count (i :: c))
              = (List.range s).map fun j => if j = i then (enumW rest).count c else 0 := by
            apply List.map_congr_left
            intro j _
            exact count_cons_map j i c (enumW rest)
          rw [this, sum_ite_range, ih c]
          show _ = if (decide (i < s) && inB c rest) = true then 1 else 0
          by_cases hi : i < s
          · by_cases hc : inB c rest = true
            · simp [hi, hc]
            · simp [hi, hc]
          · simp [hi]

theorem length_enumW (sizes : List Nat) : (enumW sizes).length = sizes.prod := by
  induction sizes with
  | nil => rfl
  | cons s rest ih =>
      show ((List.range s).flatMap fun j => (enumW rest).map fun c => j :: c).length = s * rest.prod
      rw [List.length_flatMap]
      have h1 : (List.map (List.length ∘ fun j => List.map (fun c => j :: c) (enumW rest))
          (List.range s)) = List.map (fun _ => rest.prod) (List.range s) := by
        apply List.map_congr_left
        intro j _
        simp [ih]
      rw [h1]
      rw [show (List.map (fun _ => rest.prod) (List.range s)) =
        List.replicate (List.range s).length rest.prod from List.map_const' _ _]
      simp [Nat.mul_comm]

theorem mem_enumW (sizes : List Nat) (c : List Nat) (h : c ∈ enumW sizes) :
    inB c sizes = true := by
  by_contra hc
  have := count_enumW sizes c
  rw [if_neg hc] at this
  exact (List.count_eq_zero.mp this) h

theorem foldl_flatMap {α β γ : Type} (l : List α) (h : α → List β) (g : γ → β → γ) (i : γ) :
    (l.flatMap h).foldl g i = l.foldl (fun acc a => (h a).foldl g acc) i := by
  induction l generalizing i with
  | nil => rfl
  | cons a l ih => simp [List.flatMap_cons, List.foldl_append, ih]

/-- The loop nest is exactly the sequence of writes `table[c] = f(dvals c)` over
the enumeration `enumW`, applied in iteration order. -/
theorem fill_eq_wfold {V : Type} (f : List Int → V) (sizes : List Nat)
    (dims : List (Int × Nat)) (pre : List Nat) (vacc : List Int) (t : TShape V sizes) :
    fill f dims pre vacc t =
      (enumW (dims.map Prod.snd)).foldl
        (fun acc c => setT sizes acc (pre ++ c) (f (vacc ++ dvals dims c))) t := by
  induction dims generalizing pre vacc t with
  | nil =>
      show setT sizes t pre (f vacc) = _
      simp [enumW, dvals]
  | cons p rest ih =>
      obtain ⟨m, s⟩ := p
      show (List.range s).foldl
          (fun acc (j : Nat) => fill f rest (pre ++ [j]) (vacc ++ [m + (j : Int)]) acc) t = _
      rw [show ((m, s) :: rest).map Prod.snd = s :: rest.map Prod.snd from rfl,
        show enumW (s :: rest.map Prod.snd) =
          (List.range s).flatMap (fun j => (enumW (rest.map Prod.snd)).map fun c => j :: c)
          from rfl,
        foldl_flatMap]
      apply List.foldl_ext
      intro acc j _
      rw [ih (pre ++ [j]) (vacc ++ [m + (j : Int)]) acc, List.foldl_map]
      apply List.foldl_ext
      intro acc2 c _
      rw [List.append_cons pre j c]
      have : vacc ++ [m + (j : Int)] ++ dvals rest c = vacc ++ dvals ((m, s) :: rest) (j :: c) := by
        rw [show dvals ((m, s) :: rest) (j :: c) = (m + (j : Int)) :: dvals rest c from rfl,
          List.append_cons vacc (m + (j : Int)) (dvals rest c)]
      rw [this]

/-- Reading the generated table at any in-bounds coordinate yields the original
function applied to the reconstructed argument values: construction loop order,
table dimension order and lookup order all agree. -/
theorem getT_genTable {V : Type} (d : V) (f : List Int → V) (dims : List (Int × Nat))
    (c : List Nat) (hc : inB c (dims.map Prod.snd) = true) :
    getT (dims.map Prod.snd) (genTable d f dims) c = some (f (dvals dims c)) := by
  rw [show genTable d f dims = fill f dims [] [] (initT d (dims.map Prod.snd)) from rfl,
    fill_eq_wfold]
  have : (enumW (dims.map Prod.snd)).foldl
      (fun acc c2 => setT (dims.map Prod.snd) acc ([] ++ c2) (f ([] ++ dvals dims c2)))
      (initT d (dims.map Prod.snd)) =
      wfold (dims.map Prod.snd) (fun c2 => f (dvals dims c2))
        (initT d (dims.map Prod.snd)) (enumW (dims.map Prod.snd)) := by
    apply List.foldl_ext
    intro acc c2 _
    simp
  rw [this]
  exact getT_wfold_count_one _ _ _ _ c (initT_shapeOk d _) (mem_enumW _)
    (by rw [count_enumW, if_pos hc])

theorem foldr_and_eq_true (l : List (Param × Int)) :
    (l.foldr (fun pv acc => (decide (pv.1.min ≤ pv.2) && decide (pv.2 ≤ pv.1.max)) && acc) true)
      = true ↔ ∀ pv ∈ l, pv.1.min ≤ pv.2 ∧ pv.2 ≤ pv.1.max := by
  induction l with
  | nil => simp
  | cons pv l ih =>
      simp only [List.foldr_cons, Bool.and_eq_true, decide_eq_true_eq, ih, List.mem_cons]
      constructor
      · rintro ⟨⟨h1, h2⟩, h3⟩ pv2 hpv2
        rcases hpv2 with h | h
        · exact h ▸ ⟨h1, h2⟩
        · exact h3 pv2 h
      · intro h
        exact ⟨h pv (Or.inl rfl), fun pv2 h2 => h pv2 (Or.inr h2)⟩

/-- The generated `&&`-telescope is the conjunction of the per-parameter
range conditions. -/
theorem boundsCheck_iff (ps : List Param) (vs : List Int) :
    boundsCheck ps vs = true ↔ ∀ pv ∈ List.zip ps vs, pv.1.min ≤ pv.2 ∧ pv.2 ≤ pv.1.max :=
  foldr_and_eq_true (List.zip ps vs)

theorem dimsOf_map_snd (ps : List Param) (sizes : List Nat)
    (h : sizes.length ≤ ps.length) : (dimsOf ps sizes).map Prod.snd = sizes := by
  induction ps generalizing sizes with
  | nil =>
      cases sizes with
      | nil => rfl
      | cons s sizes => simp at h
  | cons p ps ih =>
      cases sizes with
      | nil => rfl
      | cons s sizes =>
          simp only [List.length_cons, Nat.succ_le_succ_iff] at h
          show s :: (dimsOf ps sizes).map Prod.snd = s :: sizes
          rw [ih sizes h]

theorem idxs_inB (ps : List Param) (vs : List Int) (hlen : vs.length = ps.length)
    (hb : ∀ pv ∈ List.zip ps vs, pv.1.min ≤ pv.2 ∧ pv.2 ≤ pv.1.max) :
    inB (idxs ps vs) (ps.map idealSize) = true := by
  induction ps generalizing vs with
  | nil =>
      cases vs with
      | nil => rfl
      | cons v vs => simp at hlen
  | cons p ps ih =>
      cases vs with
      | nil => simp at hlen
      | cons v vs =>
          obtain ⟨h1, h2⟩ : p.min ≤ v ∧ v ≤ p.max := hb (p, v) (List.mem_cons_self _ _)
          show (decide ((v - p.min).toNat < idealSize p) && inB (idxs ps vs) (ps.map idealSize))
            = true
          rw [Bool.and_eq_true, decide_eq_true_eq]
          refine ⟨?_, ih vs (by simpa using hlen)
            (fun pv h => hb pv (List.mem_cons_of_mem _ h))⟩
          show (v - p.min).toNat < (p.max - p.min + 1).toNat
          omega

theorem dvals_idxs (ps : List Param) (vs : List Int) (hlen : vs.length = ps.length)
    (hb : ∀ pv ∈ List.zip ps vs, pv.1.min ≤ pv.2 ∧ pv.2 ≤ pv.1.max) :
    dvals (dimsOf ps (ps.map idealSize)) (idxs ps vs) = vs := by
  induction ps generalizing vs with
  | nil =>
      cases vs with
      | nil => rfl
      | cons v vs => simp at hlen
  | cons p ps ih =>
      cases vs with
      | nil => simp at hlen
      | cons v vs =>
          obtain ⟨h1, _⟩ : p.min ≤ v ∧ v ≤ p.max := hb (p, v) (List.mem_cons_self _ _)
          show (p.min + ((v - p.min).toNat : Int)) :: dvals (dimsOf ps (ps.map idealSize))
            (idxs ps vs) = v :: vs
          rw [ih vs (by simpa using hlen) (fun pv h => hb pv (List.mem_cons_of_mem _ h))]
          have : p.min + ((v - p.min).toNat : Int) = v := by omega
          rw [this]

/-- With correctly-sized dimensions, the table lookup at the accessor's indices
reproduces the original function on any in-range tuple. -/
theorem basicAcc_eq (V : Type) (d : V) (f : List Int → V) (ps : List Param) (vs : List Int)
    (hlen : vs.length = ps.length) (hb : boundsCheck ps vs = true) :
    basicAcc d f ps (ps.map idealSize) vs = some (f vs) := by
  have hb2 := (boundsCheck_iff ps vs).mp hb
  have hsnd : (dimsOf ps (ps.map idealSize)).map Prod.snd = ps.map idealSize :=
    dimsOf_map_snd ps (ps.map idealSize) (by simp)
  show getT ((dimsOf ps (ps.map idealSize)).map Prod.snd)
    (genTable d f (dimsOf ps (ps.map idealSize))) (idxs ps vs) = some (f vs)
  rw [getT_genTable d f (dimsOf ps (ps.map idealSize)) (idxs ps vs)
    (by rw [hsnd]; exact idxs_inB ps vs hlen hb2), dvals_idxs ps vs hlen hb2]

/-- C1 (amended): for every expansion whose per-dimension SIZE constants equal
the true range cardinalities `max - min + 1`, and every argument tuple with
each argument inside its declared inclusive range, the accessor of each of the
three modes returns the original function's value on that tuple (under `Some`
for Option mode), because the construction loop nest, the table dimensions and
the accessor's index arithmetic all use declaration order and the affine map
`index = value - min`. -/
theorem c1_inRange_equivalence {V : Type} (d : V) (f : List Int → V) (ps : List Param)
    (sizes : List Nat) (vs : List Int)
    (hsz : sizes = ps.map idealSize) (hlen : vs.length = ps.length)
    (hb : boundsCheck ps vs = true) :
    basicAcc d f ps sizes vs = some (f vs) ∧
    optionAcc d f ps sizes vs = some (some (f vs)) ∧
    keepAcc d f ps sizes vs = some (f vs) := by
  subst hsz
  have h := basicAcc_eq V d f ps vs hlen hb
  refine ⟨h, ?_, ?_⟩
  · show (if boundsCheck ps vs then (basicAcc d f ps (ps.map idealSize) vs).map some
      else some none) = some (some (f vs))
    rw [if_pos hb, h]
    rfl
  · show (if boundsCheck ps vs then basicAcc d f ps (ps.map idealSize) vs
      else some (f vs)) = some (f vs)
    rw [if_pos hb, h]

/-- Witness for C1: `add` over `a = 0..=10`, `b = 0..=4` at `(8, 2)`. -/
theorem c1_witness :
    basicAcc (0 : Int) addF [⟨0, 10⟩, ⟨0, 4⟩] [11, 5] [8, 2] = some 10 ∧
    optionAcc (0 : Int) addF [⟨0, 10⟩, ⟨0, 4⟩] [11, 5] [8, 2] = some (some 10) ∧
    keepAcc (0 : Int) addF [⟨0, 10⟩, ⟨0, 4⟩] [11, 5] [8, 2] = some 10 :=
  c1_inRange_equivalence (0 : Int) addF [⟨0, 10⟩, ⟨0, 4⟩] [11, 5] [8, 2]
    (by decide) (by decide) (by decide)

/-- Counterexample to C1 as frozen: the expansion for a `u64` parameter with
range `0..=u64::MAX` compiles (its SIZE constant is computed as 0, because
`u64::MAX as isize` wraps to -1 on a 64-bit platform), yet its Basic-mode
accessor faults on the in-range input 1 instead of returning the original
function's value 1. -/
theorem c1_counterexample :
    sizeConstM ⟨64, false, 0, (2 : Int) ^ 64 - 1⟩ = some 0 ∧
    boundsCheck [⟨0, (2 : Int) ^ 64 - 1⟩] [1] = true ∧
    basicAcc (0 : Int) headF [⟨0, (2 : Int) ^ 64 - 1⟩] [0] [1] = none ∧
    headF [1] = 1 := by
  refine ⟨by decide, by decide, by decide, rfl⟩

/-- C2 (amended): for any input with at least one argument strictly outside
its declared bound, the Keep-mode accessor returns exactly the original
(renamed) function applied to that input, with no side condition; it equals
the original function on the entire domain provided the expansion's SIZE
constants equal the true range cardinalities. -/
theorem c2_keep_fallback {V : Type} (d : V) (f : List Int → V) (ps : List Param)
    (sizes : List Nat) (vs : List Int) :
    (boundsCheck ps vs = false → keepAcc d f ps sizes vs = some (f vs)) ∧
    (sizes = ps.map idealSize → vs.length = ps.length →
      keepAcc d f ps sizes vs = some (f vs)) := by
  constructor
  · intro hb
    show (if boundsCheck ps vs then basicAcc d f ps sizes vs else some (f vs)) = some (f vs)
    rw [hb]
    rfl
  · intro hsz hlen
    subst hsz
    show (if boundsCheck ps vs then basicAcc d f ps (ps.map idealSize) vs else some (f vs))
      = some (f vs)
    by_cases hb : boundsCheck ps vs = true
    · rw [if_pos hb, basicAcc_eq V d f ps vs hlen hb]
    · rw [if_neg (by simpa using hb)]

/-- Witness for C2: `add` over `a = 0..=10`, `b = 0..=4` in Keep mode at the
out-of-range input `(25, 0)` (falls back to `25 + 0`) and at the in-range
input `(8, 2)`. -/
theorem c2_witness :
    keepAcc (0 : Int) addF [⟨0, 10⟩, ⟨0, 4⟩] [11, 5] [25, 0] = some 25 ∧
    keepAcc (0 : Int) addF [⟨0, 10⟩, ⟨0, 4⟩] [11, 5] [8, 2] = some 10 :=
  ⟨(c2_keep_fallback (0 : Int) addF [⟨0, 10⟩, ⟨0, 4⟩] [11, 5] [25, 0]).1 (by decide),
   (c2_keep_fallback (0 : Int) addF [⟨0, 10⟩, ⟨0, 4⟩] [11, 5] [8, 2]).2 (by decide) (by decide)⟩

/-- Counterexample to C2 as frozen: for an `i128` parameter with range
`0..=2^64` the expansion compiles with SIZE constant 1 (the cast of `2^64` to
`isize` wraps to 0), and the Keep-mode accessor faults on the in-range input 1
instead of returning the original function's value 1 — so the Keep accessor
does not equal the original function on the original function's entire domain. -/
theorem c2_counterexample :
    sizeConstM ⟨128, true, 0, (2 : Int) ^ 64⟩ = some 1 ∧
    boundsCheck [⟨0, (2 : Int) ^ 64⟩] [1] = true ∧
    keepAcc (0 : Int) headF [⟨0, (2 : Int) ^ 64⟩] [1] [1] = none ∧
    headF [1] = 1 := by
  refine ⟨by decide, by decide, by decide, rfl⟩

/-- C3 (amended): for any input with at least one argument strictly outside
its declared bound, the Option-mode accessor returns `None`, with no side
condition; it returns `Some` of the original function's value for every
in-range tuple provided the expansion's SIZE constants equal the true range
cardinalities. -/
theorem c3_option_mode {V : Type} (d : V) (f : List Int → V) (ps : List Param)
    (sizes : List Nat) (vs : List Int) :
    (boundsCheck ps vs = false → optionAcc d f ps sizes vs = some none) ∧
    (sizes = ps.map idealSize → vs.length = ps.length → boundsCheck ps vs = true →
      optionAcc d f ps sizes vs = some (some (f vs))) := by
  constructor
  · intro hb
    show (if boundsCheck ps vs then (basicAcc d f ps sizes vs).map some else some none)
      = some none
    rw [hb]
    rfl
  · intro hsz hlen hb
    subst hsz
    show (if boundsCheck ps vs then (basicAcc d f ps (ps.map idealSize) vs).map some
      else some none) = some (some (f vs))
    rw [if_pos hb, basicAcc_eq V d f ps vs hlen hb]
    rfl

/-- Witness for C3: `add` over `a = 0..=10`, `b = 0..=4` in Option mode:
`add(25, 0) = None` and `add(5, 4) = Some 9`. -/
theorem c3_witness :
    optionAcc (0 : Int) addF [⟨0, 10⟩, ⟨0, 4⟩] [11, 5] [25, 0] = some none ∧
    optionAcc (0 : Int) addF [⟨0, 10⟩, ⟨0, 4⟩] [11, 5] [5, 4] = some (some 9) :=
  ⟨(c3_option_mode (0 : Int) addF [⟨0, 10⟩, ⟨0, 4⟩] [11, 5] [25, 0]).1 (by decide),
   (c3_option_mode (0 : Int) addF [⟨0, 10⟩, ⟨0, 4⟩] [11, 5] [5, 4]).2
     (by decide) (by decide) (by decide)⟩

set_option maxRecDepth 4000 in
/-- Counterexample to C3 as frozen: for an `i128` parameter with range
`0..=2^100` the expansion compiles with SIZE constant 1 (the cast of `2^100`
to `isize` wraps to 0), and the Option-mode accessor faults on the in-range
input 1 instead of returning a present value. -/
theorem c3_counterexample :
    sizeConstM ⟨128, true, 0, (2 : Int) ^ 100⟩ = some 1 ∧
    boundsCheck [⟨0, (2 : Int) ^ 100⟩] [1] = true ∧
    optionAcc (0 : Int) headF [⟨0, (2 : Int) ^ 100⟩] [1] [1] = none := by
  refine ⟨by decide, by decide, by decide⟩

/-- C10: the `generate_table` loop nest is the in-order fold of the writes
`table[c] = f(values c)` over the enumeration of all coordinates, where each
counter runs from 0 up to its dimension's SIZE; the enumeration has exactly
`prod SIZE` entries and visits each in-bounds coordinate exactly once and no
out-of-bounds coordinate, and in the resulting table every slot holds the
original function's value for its coordinate.  (Termination is intrinsic: the
loop model is a total function of the finite size bounds.) -/
theorem c10_generate_table {V : Type} (d : V) (f : List Int → V) (dims : List (Int × Nat)) :
    genTable d f dims =
      wfold (dims.map Prod.snd) (fun c => f (dvals dims c)) (initT d (dims.map Prod.snd))
        (enumW (dims.map Prod.snd)) ∧
    (enumW (dims.map Prod.snd)).length = (dims.map Prod.snd).prod ∧
    (∀ c : List Nat, (enumW (dims.map Prod.snd)).count c
      = if inB c (dims.map Prod.snd) = true then 1 else 0) ∧
    (∀ c : List Nat, inB c (dims.map Prod.snd) = true →
      getT (dims.map Prod.snd) (genTable d f dims) c = some (f (dvals dims c))) := by
  refine ⟨?_, length_enumW _, count_enumW _, fun c hc => getT_genTable d f dims c hc⟩
  show fill f dims [] [] (initT d (dims.map Prod.snd)) = _
  rw [fill_eq_wfold]
  apply List.foldl_ext
  intro acc c _
  simp

/-- Witness for C10 at the two-parameter instance `(MIN, SIZE) = (0, 2), (5, 3)`:
the enumeration counts and the filled table's contents. -/
theorem c10_witness :
    (enumW [2, 3]).length = 6 ∧
    (enumW [2, 3]).count [1, 2] = 1 ∧
    getT [2, 3] (genTable (0 : Int) addF [(0, 2), (5, 3)]) [1, 2] = some (addF [1, 7]) := by
  have h := c10_generate_table (0 : Int) addF [(0, 2), (5, 3)]
  refine ⟨by simpa using h.2.1, ?_, ?_⟩
  · have h2 := h.2.2.1 [1, 2]
    simpa using h2
  · have h3 := h.2.2.2 [1, 2] (by decide)
    simpa using h3

theorem zip_self_map (ps : List Param) (g : Param → Int) :
    List.zip ps (ps.map g) = ps.map fun p => (p, g p) := by
  induction ps with
  | nil => rfl
  | cons p ps ih => simp [List.zip_cons_cons, ih]

theorem mem_zip_set (ps : List Param) (g : Param → Int) (i : Nat) (hi : i < ps.length) (x : Int) :
    (ps.get ⟨i, hi⟩, x) ∈ List.zip ps ((ps.map g).set i x) := by
  induction ps generalizing i with
  | nil => simp at hi
  | cons p ps ih =>
      cases i with
      | zero => exact List.mem_cons_self _ _
      | succ i =>
          simp only [List.length_cons, Nat.succ_lt_succ_iff] at hi
          show (ps.get ⟨i, hi⟩, x) ∈ (p, g p) :: List.zip ps ((ps.map g).set i x)
          exact List.mem_cons_of_mem _ (ih i hi)

theorem boundsCheck_false_of_bad (ps : List Param) (vs : List Int) (pv : Param × Int)
    (hmem : pv ∈ List.zip ps vs) (hbad : ¬ (pv.1.min ≤ pv.2 ∧ pv.2 ≤ pv.1.max)) :
    boundsCheck ps vs = false := by
  rw [← Bool.not_eq_true]
  intro h
  exact hbad ((boundsCheck_iff ps vs).mp h pv hmem)

/-- C8: both endpoints of every declared range satisfy the accessor's bounds
predicate, and one unit beyond either endpoint falsifies both the parameter's
conjunct and the whole compound predicate; singleton ranges (`min = max`)
included. -/
theorem c8_boundary_inclusivity (ps : List Param) (h : ∀ p ∈ ps, p.min ≤ p.max) :
    boundsCheck ps (ps.map Param.min) = true ∧
    boundsCheck ps (ps.map Param.max) = true ∧
    (∀ p ∈ ps, inRangeP p p.min = true ∧ inRangeP p p.max = true ∧
      inRangeP p (p.min - 1) = false ∧ inRangeP p (p.max + 1) = false) ∧
    (∀ i, (hi : i < ps.length) →
      boundsCheck ps ((ps.map Param.min).set i ((ps.get ⟨i, hi⟩).min - 1)) = false ∧
      boundsCheck ps ((ps.map Param.max).set i ((ps.get ⟨i, hi⟩).max + 1)) = false) := by
  refine ⟨?_, ?_, ?_, ?_⟩
  · rw [boundsCheck_iff, zip_self_map]
    intro pv hpv
    obtain ⟨p, hp, rfl⟩ := List.mem_map.mp hpv
    exact ⟨le_refl _, h p hp⟩
  · rw [boundsCheck_iff, zip_self_map]
    intro pv hpv
    obtain ⟨p, hp, rfl⟩ := List.mem_map.mp hpv
    exact ⟨h p hp, le_refl _⟩
  · intro p hp
    have hpm := h p hp
    refine ⟨?_, ?_, ?_, ?_⟩
    · simp [inRangeP, hpm]
    · simp [inRangeP, hpm]
    · simp only [inRangeP, Bool.and_eq_false_iff, decide_eq_false_iff_not]
      left
      omega
    · simp only [inRangeP, Bool.and_eq_false_iff, decide_eq_false_iff_not]
      right
      omega
  · intro i hi
    constructor
    · exact boundsCheck_false_of_bad ps _ (ps.get ⟨i, hi⟩, (ps.get ⟨i, hi⟩).min - 1)
        (mem_zip_set ps Param.min i hi _)
        (show ¬ ((ps.get ⟨i, hi⟩).min ≤ (ps.get ⟨i, hi⟩).min - 1 ∧
          (ps.get ⟨i, hi⟩).min - 1 ≤ (ps.get ⟨i, hi⟩).max) from by omega)
    · exact boundsCheck_false_of_bad ps _ (ps.get ⟨i, hi⟩, (ps.get ⟨i, hi⟩).max + 1)
        (mem_zip_set ps Param.max i hi _)
        (show ¬ ((ps.get ⟨i, hi⟩).min ≤ (ps.get ⟨i, hi⟩).max + 1 ∧
          (ps.get ⟨i, hi⟩).max + 1 ≤ (ps.get ⟨i, hi⟩).max) from by omega)

/-- Witness for C8 at a singleton range `a = 5..=5` and a two-value range
`b = 0..=1`. -/
theorem c8_witness :
    boundsCheck [⟨5, 5⟩, ⟨0, 1⟩] [5, 0] = true ∧
    inRangeP ⟨5, 5⟩ 5 = true ∧
    inRangeP ⟨5, 5⟩ 4 = false ∧
    inRangeP ⟨5, 5⟩ 6 = false ∧
    boundsCheck [⟨5, 5⟩, ⟨0, 1⟩] [4, 0] = false := by
  have h := c8_boundary_inclusivity [⟨5, 5⟩, ⟨0, 1⟩] (by decide)
  refine ⟨h.1, (h.2.2.1 ⟨5, 5⟩ (by decide)).1, (h.2.2.1 ⟨5, 5⟩ (by decide)).2.2.1,
    (h.2.2.1 ⟨5, 5⟩ (by decide)).2.2.2, ?_⟩
  have h4 := (h.2.2.2 0 (by decide)).1
  simpa using h4

theorem rty_ne_opt (t : RTy) : t ≠ RTy.opt t := by
  induction t with
  | base n => intro h; exact RTy.noConfusion h
  | arr t s ih => intro h; exact RTy.noConfusion h
  | opt t ih => intro h; injection h with h2; exact ih h2

theorem stripArr_tableTypeOf (sizes : List Nat) (r : RTy) :
    stripArr sizes.length (tableTypeOf sizes r) = some r := by
  induction sizes with
  | nil => rfl
  | cons s rest ih =>
      show stripArr (rest.length + 1) (RTy.arr (tableTypeOf rest r) s) = some r
      rw [show stripArr (rest.length + 1) (RTy.arr (tableTypeOf rest r) s)
        = stripArr rest.length (tableTypeOf rest r) from rfl]
      exact ih

/-- C5: the table's element type is the bare original return type in every
mode — the table type is built from the original return type before `Option`
mode rewrites anything, stripping its array layers (one per parameter) gives
back exactly the original return type, and it does not depend on the mode; the
only type that changes is the accessor's declared return type, which is
`Option<original>` precisely in Option mode. -/
theorem c5_table_element_type (mode : Mode) (sizes : List Nat) (ret : RTy) :
    (expandTys mode sizes ret).1 = tableTypeOf sizes ret ∧
    stripArr sizes.length (expandTys mode sizes ret).1 = some ret ∧
    (expandTys mode sizes ret).1 = (expandTys Mode.basic sizes ret).1 ∧
    ((expandTys mode sizes ret).2 = RTy.opt ret ↔ mode = Mode.modeOpt) := by
  refine ⟨rfl, stripArr_tableTypeOf sizes ret, rfl, ?_⟩
  constructor
  · intro h
    by_contra hm
    have : (expandTys mode sizes ret).2 = ret := by
      show (if mode = Mode.modeOpt then RTy.opt ret else ret) = ret
      rw [if_neg hm]
    rw [this] at h
    exact rty_ne_opt ret h
  · intro h
    subst h
    rfl

theorem castUsize_lt (n : Int) : castUsize n < 2 ^ 64 := by
  unfold castUsize
  have h1 : n % (2 : Int) ^ 64 < (2 : Int) ^ 64 :=
    Int.emod_lt_of_pos n (by positivity)
  omega

/-- C4 (amended): the emitted `SIZE` constant equals `(end - start) + 1`
whenever both endpoints survive the cast to `isize` unchanged (always the case
for parameter types of at most 32 bits, and for 64/128-bit values inside the
`isize` range) and the cardinality stays below `2^63`; outside those
conditions the isize casts wrap (see the counterexample). -/
theorem c4_size_constant (p : MParam)
    (h1 : castTy 64 true p.min = p.min) (h2 : castTy 64 true p.max = p.max)
    (h3 : p.min ≤ p.max) (h4 : p.max - p.min + 1 < (2 : Int) ^ 63) :
    sizeConstM p = some ((p.max - p.min + 1).toNat) := by
  have e63 : (2 : Int) ^ 63 = 9223372036854775808 := by norm_num
  have e64 : (2 : Int) ^ 64 = 18446744073709551616 := by norm_num
  have hin1 : inTy 64 true (castTy 64 true p.max - castTy 64 true p.min) := by
    rw [h1, h2]
    unfold inTy tyMinI tyMaxI
    simp only [if_pos rfl]
    constructor <;> omega
  have hin2 : inTy 64 true (castTy 64 true p.max - castTy 64 true p.min + 1) := by
    rw [h1, h2]
    unfold inTy tyMinI tyMaxI
    simp only [if_pos rfl]
    constructor <;> omega
  unfold sizeConstM
  rw [if_pos hin1, if_pos hin2, h1, h2]
  congr 1
  unfold castUsize
  rw [Int.emod_eq_of_lt (by omega) (by omega)]

/-- Witness for C4: a full-range `u32` parameter, `0..=u32::MAX`. -/
theorem c4_witness : sizeConstM ⟨32, false, 0, 4294967295⟩ = some 4294967296 :=
  c4_size_constant ⟨32, false, 0, 4294967295⟩ (by decide) (by decide) (by decide) (by decide)

/-- Counterexample to C4 as frozen: for a `u64` parameter with range
`0..=u64::MAX` the subtraction domain is not wide enough — `u64::MAX as isize`
wraps to -1 on a 64-bit platform, so the emitted constant is 0 while the true
cardinality `(end - start) + 1` is `2^64`. -/
theorem c4_counterexample :
    sizeConstM ⟨64, false, 0, (2 : Int) ^ 64 - 1⟩ = some 0 ∧
    ((2 : Int) ^ 64 - 1) - 0 + 1 = (2 : Int) ^ 64 ∧
    (0 : Nat) ≠ (((2 : Int) ^ 64 - 1) - 0 + 1).toNat := by
  refine ⟨by decide, by norm_num, by decide⟩

theorem castTy_eq_of_unsigned (w : Nat) (n : Int) (h0 : 0 ≤ n) (h1 : n < (2 : Int) ^ w) :
    castTy w false n = n := by
  unfold castTy
  simp [Int.emod_eq_of_lt h0 h1]

theorem castTy_eq_of_signed (w : Nat) (n : Int) (h0 : 0 ≤ n) (h1 : n < (2 : Int) ^ (w - 1)) :
    castTy w true n = n := by
  unfold castTy
  have hlt : n < (2 : Int) ^ w :=
    lt_of_lt_of_le h1 (pow_le_pow_right₀ (by norm_num) (by omega))
  rw [Int.emod_eq_of_lt h0 hlt]
  rw [if_neg (by simp [not_le.mpr h1])]

theorem inTy_unsigned (w : Nat) (v : Int) :
    inTy w false v ↔ 0 ≤ v ∧ v ≤ (2 : Int) ^ w - 1 := by
  unfold inTy tyMinI tyMaxI
  simp

theorem inTy_signed (w : Nat) (v : Int) :
    inTy w true v ↔ -((2 : Int) ^ (w - 1)) ≤ v ∧ v ≤ (2 : Int) ^ (w - 1) - 1 := by
  unfold inTy tyMinI tyMaxI
  simp

/-- If the table-construction loop const-evaluates for a signed parameter,
the declared span `max - min` is below `2^(w-1)`, so the accessor's in-type
subtraction cannot overflow. -/
theorem signed_span (p : MParam) (hw : 1 ≤ p.w)
    (hmax : inTy p.w p.signed p.max) (hle : p.min ≤ p.max) (hs : p.signed = true)
    (hb : buildOkM p ((p.max - p.min + 1).toNat)) :
    p.max - p.min < (2 : Int) ^ (p.w - 1) := by
  by_contra h
  push_neg at h
  have hj0 : (((2 : Nat) ^ (p.w - 1) : Nat) : Int) = (2 : Int) ^ (p.w - 1) := by
    push_cast
    rfl
  have hpos : (0 : Int) < (2 : Int) ^ (p.w - 1) := by positivity
  have h2w : (2 : Int) ^ p.w = 2 * (2 : Int) ^ (p.w - 1) := by
    rw [← pow_succ']
    congr 1
    omega
  have hjlt : (2 : Nat) ^ (p.w - 1) < (p.max - p.min + 1).toNat := by omega
  have hb0 := hb (2 ^ (p.w - 1)) hjlt
  have hcast : castTy p.w p.signed (((2 : Nat) ^ (p.w - 1) : Nat) : Int)
      = -((2 : Int) ^ (p.w - 1)) := by
    unfold castTy
    rw [hs, hj0]
    have hmod : (2 : Int) ^ (p.w - 1) % (2 : Int) ^ p.w = (2 : Int) ^ (p.w - 1) :=
      Int.emod_eq_of_lt (le_of_lt hpos) (by omega)
    rw [hmod, if_pos (by simp)]
    omega
  rw [hcast] at hb0
  rw [hs, inTy_signed] at hb0 hmax
  omega

/-- Per-dimension index arithmetic: with a correct SIZE constant and a
successfully const-evaluated table build, the machine index of any in-range
value is exact and strictly below the SIZE constant, and the in-type
subtraction does not overflow. -/
theorem mDx_exact (p : MParam) (v : Int) (hwf : wfP p)
    (hsz : sizeConstM p = some ((p.max - p.min + 1).toNat))
    (hbuild : buildOkM p ((p.max - p.min + 1).toNat))
    (h1 : p.min ≤ v) (h2 : v ≤ p.max) :
    subOk p v ∧ mDx p v = (v - p.min).toNat ∧ mDx p v < (p.max - p.min + 1).toNat := by
  obtain ⟨hw, hmin, hmax, hle⟩ := hwf
  have hcard : p.max - p.min + 1 < (2 : Int) ^ 64 := by
    have hlt : castUsize (castTy 64 true p.max - castTy 64 true p.min + 1) < 2 ^ 64 :=
      castUsize_lt _
    have heq : (p.max - p.min + 1).toNat < 2 ^ 64 := by
      unfold sizeConstM at hsz
      by_cases ha : inTy 64 true (castTy 64 true p.max - castTy 64 true p.min)
      · rw [if_pos ha] at hsz
        by_cases hb2 : inTy 64 true (castTy 64 true p.max - castTy 64 true p.min + 1)
        · rw [if_pos hb2] at hsz
          have := Option.some.inj hsz
          omega
        · rw [if_neg hb2] at hsz
          exact absurd hsz (by simp)
      · rw [if_neg ha] at hsz
        exact absurd hsz (by simp)
    have e64 : (((2 : Nat) ^ 64 : Nat) : Int) = (2 : Int) ^ 64 := by
      push_cast
    omega
  cases hsgn : p.signed with
  | false =>
      rw [hsgn] at hmin hmax
      rw [inTy_unsigned] at hmin hmax
      have hsub : castTy p.w p.signed (v - p.min) = v - p.min := by
        rw [hsgn]
        exact castTy_eq_of_unsigned p.w (v - p.min) (by omega) (by omega)
      refine ⟨?_, ?_, ?_⟩
      · show inTy p.w p.signed (v - p.min)
        rw [hsgn, inTy_unsigned]
        constructor <;> omega
      · unfold mDx castUsize
        rw [hsub, Int.emod_eq_of_lt (by omega) (by omega)]
      · unfold mDx castUsize
        rw [hsub, Int.emod_eq_of_lt (by omega) (by omega)]
        omega
  | true =>
      rw [hsgn] at hmin hmax
      rw [inTy_signed] at hmin hmax
      have hspan : p.max - p.min < (2 : Int) ^ (p.w - 1) :=
        signed_span p hw (by rw [hsgn, inTy_signed]; exact hmax) hle hsgn hbuild
      have hpos : (0 : Int) < (2 : Int) ^ (p.w - 1) := by positivity
      have hsub : castTy p.w p.signed (v - p.min) = v - p.min := by
        rw [hsgn]
        exact castTy_eq_of_signed p.w (v - p.min) (by omega) (by omega)
      refine ⟨?_, ?_, ?_⟩
      · show inTy p.w p.signed (v - p.min)
        rw [hsgn, inTy_signed]
        constructor <;> omega
      · unfold mDx castUsize
        rw [hsub, Int.emod_eq_of_lt (by omega) (by omega)]
      · unfold mDx castUsize
        rw [hsub, Int.emod_eq_of_lt (by omega) (by omega)]
        omega

theorem zipWith_eq_of_mem {α β γ : Type} (f g : α → β → γ) (l1 : List α) (l2 : List β)
    (h : ∀ pv ∈ List.zip l1 l2, f pv.1 pv.2 = g pv.1 pv.2) :
    List.zipWith f l1 l2 = List.zipWith g l1 l2 := by
  induction l1 generalizing l2 with
  | nil => rfl
  | cons a l1 ih =>
      cases l2 with
      | nil => rfl
      | cons b l2 =>
          show f a b :: List.zipWith f l1 l2 = g a b :: List.zipWith g l1 l2
          rw [h (a, b) (List.mem_cons_self _ _), ih l2
            (fun pv hpv => h pv (List.mem_cons_of_mem _ hpv))]

/-- C9 (amended): in a compiling expansion — SIZE constants equal to the true
cardinalities and a table construction whose const evaluation succeeds — the
bounds predicate guarantees, for every parameter, that the accessor's in-type
subtraction `v - MIN` does not underflow or overflow the parameter's type,
that the resulting `usize` index equals the exact distance `v - min`, and that
it is strictly below the dimension's SIZE constant; hence the machine indices
coincide with the exact ones and the accessor's table access succeeds — the
out-of-bounds fault branch is unreachable under the predicate. -/
theorem c9_index_in_bounds {V : Type} (d : V) (f : List Int → V)
    (mps : List MParam) (vs : List Int)
    (hlen : vs.length = mps.length)
    (hall : ∀ pv ∈ List.zip mps vs,
      wfP pv.1 ∧ sizeConstM pv.1 = some (idealSize (toParam pv.1)) ∧
      buildOkM pv.1 (idealSize (toParam pv.1)) ∧ pv.1.min ≤ pv.2 ∧ pv.2 ≤ pv.1.max) :
    (∀ pv ∈ List.zip mps vs,
      subOk pv.1 pv.2 ∧ mDx pv.1 pv.2 = (pv.2 - pv.1.min).toNat ∧
      mDx pv.1 pv.2 < idealSize (toParam pv.1)) ∧
    List.zipWith mDx mps vs = idxs (mps.map toParam) vs ∧
    getT ((dimsOf (mps.map toParam) ((mps.map toParam).map idealSize)).map Prod.snd)
      (genTable d f (dimsOf (mps.map toParam) ((mps.map toParam).map idealSize)))
      (List.zipWith mDx mps vs) = some (f vs) := by
  have hdim : ∀ pv ∈ List.zip mps vs,
      subOk pv.1 pv.2 ∧ mDx pv.1 pv.2 = (pv.2 - pv.1.min).toNat ∧
      mDx pv.1 pv.2 < idealSize (toParam pv.1) := by
    intro pv hpv
    obtain ⟨hwf, hsz, hbuild, hb1, hb2⟩ := hall pv hpv
    exact mDx_exact pv.1 pv.2 hwf hsz hbuild hb1 hb2
  have hzw : List.zipWith mDx mps vs = idxs (mps.map toParam) vs := by
    show List.zipWith mDx mps vs
      = List.zipWith (fun p v => (v - p.min).toNat) (mps.map toParam) vs
    rw [List.zipWith_map_left]
    exact zipWith_eq_of_mem _ _ mps vs (fun pv hpv => (hdim pv hpv).2.1)
  have hbc : boundsCheck (mps.map toParam) vs = true := by
    rw [boundsCheck_iff, List.zip_map_left]
    intro qv hqv
    obtain ⟨pv, hpv, rfl⟩ := List.mem_map.mp hqv
    obtain ⟨_, _, _, hb1, hb2⟩ := hall pv hpv
    exact ⟨hb1, hb2⟩
  refine ⟨hdim, hzw, ?_⟩
  rw [hzw]
  exact basicAcc_eq V d f (mps.map toParam) vs (by simpa using hlen) hbc

/-- Witness for C9: an `i8` parameter over `-10..=10` at the in-range value 5:
the subtraction stays in `i8`, the index is 15 and the SIZE constant is 21. -/
theorem c9_witness :
    subOk ⟨8, true, -10, 10⟩ 5 ∧ mDx ⟨8, true, -10, 10⟩ 5 = 15 ∧
    mDx ⟨8, true, -10, 10⟩ 5 < 21 := by
  have h := c9_index_in_bounds (0 : Int) headF [⟨8, true, -10, 10⟩] [5] rfl (by decide)
  have h2 := h.1 (⟨8, true, -10, 10⟩, 5) (by decide)
  exact ⟨h2.1, h2.2.1, h2.2.2⟩

/-- Counterexample to C9 as frozen: the compiling `u64` expansion over
`0..=u64::MAX` (SIZE constant 0, so the table-build loop runs zero times and
const evaluation trivially succeeds) has an in-range input, 0, whose computed
index 0 is not below the SIZE constant 0: the bounds predicate holds yet the
table access faults. -/
theorem c9_counterexample :
    ((0 : Int) ≤ 0 ∧ (0 : Int) ≤ (2 : Int) ^ 64 - 1) ∧
    sizeConstM ⟨64, false, 0, (2 : Int) ^ 64 - 1⟩ = some 0 ∧
    buildOkM ⟨64, false, 0, (2 : Int) ^ 64 - 1⟩ 0 ∧
    mDx ⟨64, false, 0, (2 : Int) ^ 64 - 1⟩ 0 = 0 ∧
    ¬ mDx ⟨64, false, 0, (2 : Int) ^ 64 - 1⟩ 0 < 0 := by
  refine ⟨by decide, by decide, ?_, by decide, by decide⟩
  intro j hj
  exact absurd hj (by omega)

theorem lookup_isSome_iff {B : Type} (l : List (String × B)) (k : String) :
    (l.lookup k).isSome = true ↔ k ∈ l.map Prod.fst := by
  induction l with
  | nil => simp [List.lookup]
  | cons a l ih =>
      obtain ⟨k2, v⟩ := a
      by_cases hk : k = k2
      · subst hk
        simp [List.lookup]
      · have hbeq : (k == k2) = false := by simpa using hk
        simp [List.lookup, hbeq, ih, hk]

theorem lookup_append {B : Type} (l1 l2 : List (String × B)) (k : String) :
    (l1 ++ l2).lookup k = (l1.lookup k).or (l2.lookup k) := by
  induction l1 with
  | nil => rfl
  | cons a l1 ih =>
      obtain ⟨k2, v⟩ := a
      by_cases hk : k = k2
      · subst hk
        simp [List.lookup]
      · have hbeq : (k == k2) = false := by simpa using hk
        simp [List.lookup, hbeq, ih]

theorem lookup_eq_none_of_not_mem {B : Type} (l : List (String × B)) (k : String)
    (h : ∀ e ∈ l, e.1 ≠ k) : l.lookup k = none := by
  induction l with
  | nil => rfl
  | cons a l ih =>
      obtain ⟨k2, v⟩ := a
      have hne : k ≠ k2 := fun he => h (k2, v) (List.mem_cons_self _ _) he.symm
      have hbeq : (k == k2) = false := by simpa using hne
      simp only [List.lookup, hbeq]
      exact ih fun e he => h e (List.mem_cons_of_mem _ he)

theorem keysOk_cons {A : Type} (it : MetaArg A) (rest : List (MetaArg A))
    (h : keysOk (it :: rest) = true) : keysOk rest = true := by
  unfold keysOk at h ⊢
  rw [List.all_eq_true] at h ⊢
  exact fun x hx => h x (List.mem_cons_of_mem _ hx)

theorem hasUnknown_cons_nv {A : Type} (p : List String) (v : A) (rest : List (MetaArg A)) :
    hasUnknown (MetaArg.nameValue p v :: rest) = hasUnknown rest := by
  unfold hasUnknown flagsOf
  rfl

theorem hasUnknown_cons_other {A : Type} (rest : List (MetaArg A)) :
    hasUnknown (MetaArg.other :: rest) = hasUnknown rest := by
  unfold hasUnknown flagsOf
  rfl

theorem hasUnknown_cons_flag {A : Type} (s : String) (rest : List (MetaArg A)) :
    hasUnknown (MetaArg.flag s :: rest)
      = ((!(s == "option") && !(s == "keep")) || hasUnknown rest) := by
  unfold hasUnknown flagsOf
  rfl

theorem namesOf_cons_nv {A : Type} (p : List String) (v : A) (rest : List (MetaArg A))
    (k : String) (h : getIdent p = some k) :
    namesOf (MetaArg.nameValue p v :: rest) = k :: namesOf rest := by
  unfold namesOf
  simp [List.filterMap_cons, h]

theorem namesOf_cons_flag {A : Type} (s : String) (rest : List (MetaArg A)) :
    namesOf (MetaArg.flag s :: rest) = namesOf rest := rfl

theorem namesOf_cons_other {A : Type} (rest : List (MetaArg A)) :
    namesOf (MetaArg.other :: rest) = namesOf rest := rfl

theorem pairsOf_cons_nv {A : Type} (p : List String) (v : A) (rest : List (MetaArg A))
    (k : String) (h : getIdent p = some k) :
    pairsOf (MetaArg.nameValue p v :: rest) = (k, v) :: pairsOf rest := by
  unfold pairsOf
  simp [List.filterMap_cons, h]

theorem pairsOf_cons_flag {A : Type} (s : String) (rest : List (MetaArg A)) :
    pairsOf (MetaArg.flag s :: rest) = pairsOf rest := rfl

theorem pairsOf_cons_other {A : Type} (rest : List (MetaArg A)) :
    pairsOf (MetaArg.other :: rest) = pairsOf rest := rfl

theorem flagsOf_cons_nv {A : Type} (p : List String) (v : A) (rest : List (MetaArg A)) :
    flagsOf (MetaArg.nameValue p v :: rest) = flagsOf rest := rfl

theorem flagsOf_cons_flag {A : Type} (s : String) (rest : List (MetaArg A)) :
    flagsOf (MetaArg.flag s :: rest) = s :: flagsOf rest := rfl

theorem flagsOf_cons_other {A : Type} (rest : List (MetaArg A)) :
    flagsOf (MetaArg.other :: rest) = flagsOf rest := rfl

theorem parseLoop_ok {A : Type} (items : List (MetaArg A)) (acc : List (String × A))
    (ho hk : Bool) (hkeys : keysOk items = true) (hunk : hasUnknown items = false)
    (hnd : (acc.map Prod.fst ++ namesOf items).Nodup) :
    parseLoop items acc ho hk =
      .ok (acc ++ pairsOf items, ho || (flagsOf items).contains "option",
        hk || (flagsOf items).contains "keep") := by
  induction items generalizing acc ho hk with
  | nil => simp [parseLoop, namesOf, pairsOf, flagsOf]
  | cons it rest ih =>
      cases it with
      | nameValue p v =>
          have hkid : (getIdent p).isSome = true := by
            unfold keysOk at hkeys
            have := List.all_eq_true.mp hkeys (MetaArg.nameValue p v) (List.mem_cons_self _ _)
            simpa using this
          obtain ⟨k, hk2⟩ := Option.isSome_iff_exists.mp hkid
          rw [namesOf_cons_nv p v rest k hk2] at hnd
          have hknotin : ¬ k ∈ acc.map Prod.fst := by
            intro hmem
            have hdisj := (List.nodup_append.mp hnd).2.2
            exact hdisj hmem (List.mem_cons_self _ _)
          have hlook : (acc.lookup k).isSome = false := by
            rw [← Bool.not_eq_true, lookup_isSome_iff]
            exact hknotin
          show (match getIdent p with
            | none => Except.error CfgErr.keyNotIdent
            | some k => if (acc.lookup k).isSome then Except.error (CfgErr.dupKey k)
                else parseLoop rest (acc ++ [(k, v)]) ho hk) = _
          rw [hk2]
          show (if (acc.lookup k).isSome then Except.error (CfgErr.dupKey k)
            else parseLoop rest (acc ++ [(k, v)]) ho hk) = _
          rw [hlook]
          show parseLoop rest (acc ++ [(k, v)]) ho hk = _
          rw [ih (acc ++ [(k, v)]) ho hk (keysOk_cons _ _ hkeys)
            (by rwa [hasUnknown_cons_nv] at hunk)
            (by
              rw [List.map_append, List.append_assoc]
              simpa using hnd)]
          rw [pairsOf_cons_nv p v rest k hk2, flagsOf_cons_nv]
          simp
      | flag s =>
          have hkeys2 : keysOk rest = true := keysOk_cons _ _ hkeys
          rw [hasUnknown_cons_flag] at hunk
          rw [namesOf_cons_flag] at hnd
          simp only [Bool.or_eq_false_iff, Bool.and_eq_false_iff, Bool.not_eq_false,
            Bool.not_eq_true, beq_eq_false_iff_ne] at hunk
          obtain ⟨h1, hunk2⟩ := hunk
          have hs : s = "option" ∨ s = "keep" := by
            rcases h1 with h | h
            · left
              simpa using h
            · right
              simpa using h
          rcases hs with hs | hs
          · subst hs
            show parseLoop rest acc true hk = _
            rw [ih acc true hk hkeys2 hunk2 hnd]
            rw [pairsOf_cons_flag, flagsOf_cons_flag]
            simp
          · subst hs
            show (if ("keep" : String) = "option" then parseLoop rest acc true hk
              else if ("keep" : String) = "keep" then parseLoop rest acc ho true
              else Except.error (CfgErr.unknownOption "keep")) = _
            rw [if_neg (by decide), if_pos rfl]
            rw [ih acc ho true hkeys2 hunk2 hnd]
            rw [pairsOf_cons_flag, flagsOf_cons_flag]
            have hok : ¬ (("option" : String) == "keep") = true := by decide
            simp [hok]
      | other =>
          show parseLoop rest acc ho hk = _
          rw [ih acc ho hk (keysOk_cons _ _ hkeys)
            (by rwa [hasUnknown_cons_other] at hunk)
            (by rwa [namesOf_cons_other] at hnd)]
          rw [pairsOf_cons_other, flagsOf_cons_other]

theorem parseLoop_fails {A : Type} (items : List (MetaArg A)) (acc : List (String × A))
    (ho hk : Bool) (hkeys : keysOk items = true)
    (haccnd : (acc.map Prod.fst).Nodup)
    (hbad : ¬ (acc.map Prod.fst ++ namesOf items).Nodup ∨ hasUnknown items = true) :
    (parseLoop items acc ho hk).isOk = false := by
  induction items generalizing acc ho hk with
  | nil =>
      rcases hbad with h | h
      · rw [show namesOf ([] : List (MetaArg A)) = [] from rfl, List.append_nil] at h
        exact absurd haccnd h
      · rw [show hasUnknown ([] : List (MetaArg A)) = false from rfl] at h
        exact absurd h (by simp)
  | cons it rest ih =>
      cases it with
      | nameValue p v =>
          have hkid : (getIdent p).isSome = true := by
            unfold keysOk at hkeys
            have := List.all_eq_true.mp hkeys (MetaArg.nameValue p v) (List.mem_cons_self _ _)
            simpa using this
          obtain ⟨k, hk2⟩ := Option.isSome_iff_exists.mp hkid
          show ((match getIdent p with
            | none => Except.error CfgErr.keyNotIdent
            | some k => if (acc.lookup k).isSome then Except.error (CfgErr.dupKey k)
                else parseLoop rest (acc ++ [(k, v)]) ho hk) : Except CfgErr _).isOk = false
          rw [hk2]
          show ((if (acc.lookup k).isSome then Except.error (CfgErr.dupKey k)
            else parseLoop rest (acc ++ [(k, v)]) ho hk) :
              Except CfgErr (List (String × A) × Bool × Bool)).isOk = false
          by_cases hdup : (acc.lookup k).isSome = true
          · rw [hdup]
            rfl
          · have hlook : (acc.lookup k).isSome = false := Bool.eq_false_iff.mpr hdup
            rw [hlook]
            show (parseLoop rest (acc ++ [(k, v)]) ho hk).isOk = false
            have hknotin : ¬ k ∈ acc.map Prod.fst := by
              intro hmem
              rw [← lookup_isSome_iff] at hmem
              rw [hlook] at hmem
              exact Bool.false_ne_true hmem
            refine ih (acc ++ [(k, v)]) ho hk (keysOk_cons _ _ hkeys) ?_ ?_
            · rw [List.map_append]
              rw [List.nodup_append]
              refine ⟨haccnd, by simp, ?_⟩
              intro a ha hamem
              rw [show List.map Prod.fst [(k, v)] = [k] from rfl] at hamem
              exact hknotin (by simpa [List.mem_singleton.mp hamem] using ha)
            · rcases hbad with h | h
              · left
                rw [namesOf_cons_nv p v rest k hk2] at h
                rw [List.map_append, List.append_assoc]
                simpa using h
              · right
                rwa [hasUnknown_cons_nv] at h
      | flag s =>
          rw [hasUnknown_cons_flag] at hbad
          rw [namesOf_cons_flag] at hbad
          by_cases ho2 : s = "option"
          · subst ho2
            show (parseLoop rest acc true hk).isOk = false
            refine ih acc true hk (keysOk_cons _ _ hkeys) haccnd ?_
            rcases hbad with h | h
            · exact Or.inl h
            · right
              simpa using h
          · by_cases hk3 : s = "keep"
            · subst hk3
              show ((if ("keep" : String) = "option" then parseLoop rest acc true hk
                else if ("keep" : String) = "keep" then parseLoop rest acc ho true
                else Except.error (CfgErr.unknownOption "keep")) : Except CfgErr _).isOk = false
              rw [if_neg (by decide), if_pos rfl]
              refine ih acc ho true (keysOk_cons _ _ hkeys) haccnd ?_
              rcases hbad with h | h
              · exact Or.inl h
              · right
                simpa using h
            · show ((if s = "option" then parseLoop rest acc true hk
                else if s = "keep" then parseLoop rest acc ho true
                else Except.error (CfgErr.unknownOption s)) : Except CfgErr _).isOk = false
              rw [if_neg ho2, if_neg hk3]
              rfl
      | other =>
          rw [hasUnknown_cons_other] at hbad
          rw [namesOf_cons_other] at hbad
          exact ih acc ho hk (keysOk_cons _ _ hkeys) haccnd hbad

/-- C6 (amended): on payloads whose `name = value` keys are all plain
identifiers, the declaration parser succeeds exactly when no binding name is
declared twice, no unrecognized bare flag appears, and `option` and `keep` are
not both present, and then it produces the name-to-range mapping and the
single mode selected by the flags; a payload with a non-identifier key (for
example `a::b = ..`) also fails, which the frozen claim's list of failure
conditions omits (see the counterexample), and other meta forms such as
list-style entries are silently skipped. -/
theorem c6_declaration_parsing {A : Type} (items : List (MetaArg A))
    (hkeys : keysOk items = true) :
    ((parseAttr items).isOk = true ↔
      ((namesOf items).Nodup ∧ hasUnknown items = false ∧ hasBoth items = false)) ∧
    ((namesOf items).Nodup → hasUnknown items = false → hasBoth items = false →
      parseAttr items = .ok (pairsOf items, modeOf items)) := by
  have hsecond : (namesOf items).Nodup → hasUnknown items = false → hasBoth items = false →
      parseAttr items = .ok (pairsOf items, modeOf items) := by
    intro hnd hunk hb
    unfold parseAttr
    rw [parseLoop_ok items [] false false hkeys hunk (by simpa using hnd)]
    show (if (false || (flagsOf items).contains "option")
        && (false || (flagsOf items).contains "keep") then _ else _) = _
    rw [Bool.false_or, Bool.false_or]
    unfold hasBoth at hb
    rw [hb]
    show Except.ok ([] ++ pairsOf items,
      if (flagsOf items).contains "option" then Mode.modeOpt
      else if (flagsOf items).contains "keep" then Mode.modeKeep else Mode.basic) = _
    rw [List.nil_append]
    rfl
  refine ⟨⟨?_, fun h => by rw [hsecond h.1 h.2.1 h.2.2]; rfl⟩, hsecond⟩
  intro hok
  have hpl : ∀ e : CfgErr, parseLoop items [] false false ≠ .error e := by
    intro e he
    unfold parseAttr at hok
    rw [he] at hok
    exact Bool.false_ne_true hok
  have hnd : (namesOf items).Nodup := by
    by_contra h
    have hfail := parseLoop_fails items [] false false hkeys (by simp)
      (Or.inl (by simpa using h))
    cases hpe : parseLoop items [] false false with
    | error e => exact hpl e hpe
    | ok r =>
        rw [hpe] at hfail
        exact Bool.noConfusion hfail
  have hunk : hasUnknown items = false := by
    by_contra h
    have hfail := parseLoop_fails items [] false false hkeys (by simp)
      (Or.inr (by simpa using h))
    cases hpe : parseLoop items [] false false with
    | error e => exact hpl e hpe
    | ok r =>
        rw [hpe] at hfail
        exact Bool.noConfusion hfail
  refine ⟨hnd, hunk, ?_⟩
  by_contra h
  have hb : hasBoth items = true := by simpa using h
  unfold hasBoth at hb
  obtain ⟨hco, hck⟩ := by
    rw [Bool.and_eq_true] at hb
    exact hb
  have herr : parseAttr items = .error CfgErr.exclusiveFlags := by
    unfold parseAttr
    rw [parseLoop_ok items [] false false hkeys hunk (by simpa using hnd)]
    show (if (false || (flagsOf items).contains "option")
        && (false || (flagsOf items).contains "keep") then _ else _) = _
    rw [Bool.false_or, Bool.false_or, hco, hck]
    rfl
  rw [herr] at hok
  exact Bool.noConfusion hok

/-- Witness for C6: the payload `a = r, option` parses to the map
`[(a, r)]` with Option mode. -/
theorem c6_witness :
    parseAttr [MetaArg.nameValue ["a"] (7 : Nat), MetaArg.flag "option"]
      = .ok ([("a", 7)], Mode.modeOpt) := by
  have h := (c6_declaration_parsing
    [MetaArg.nameValue ["a"] (7 : Nat), MetaArg.flag "option"] (by decide)).2
    (by decide) (by decide) (by decide)
  exact h

/-- Counterexample to C6 as frozen: the payload consisting of the single
entry `a::b = r` (a name-value whose key is a two-segment path) makes the
parser fail even though no name is declared twice, no unrecognized bare flag
appears, and the two mode flags are not both present. -/
theorem c6_counterexample :
    (parseAttr [MetaArg.nameValue ["a", "b"] (0 : Nat)]).isOk = false ∧
    (namesOf [MetaArg.nameValue ["a", "b"] (0 : Nat)]).Nodup ∧
    hasUnknown [MetaArg.nameValue ["a", "b"] (0 : Nat)] = false ∧
    hasBoth [MetaArg.nameValue ["a", "b"] (0 : Nat)] = false := by
  refine ⟨by decide, by decide, by decide, by decide⟩

/-- C7: the signature-binding loop fails with an error naming the first
parameter that has no declared range (and only then — it succeeds exactly when
every parameter has one), and range entries whose key matches no parameter
never affect the outcome: appending any such entries to the range map leaves
the binder's result unchanged, as if they were absent. -/
theorem c7_signature_binder {A B : Type} (rmap extra : List (String × A))
    (params : List (String × B)) :
    (∀ n : String, firstUnbound rmap params = some n →
      bindArgs rmap params = .error (.missingRange n) ∧ n ∈ params.map Prod.fst ∧
      rmap.lookup n = none) ∧
    (firstUnbound rmap params = none → (bindArgs rmap params).isOk = true) ∧
    ((∀ e ∈ extra, ¬ e.1 ∈ params.map Prod.fst) →
      bindArgs (rmap ++ extra) params = bindArgs rmap params) := by
  refine ⟨?_, ?_, ?_⟩
  · intro n hn
    induction params with
    | nil => exact absurd hn (by simp [firstUnbound])
    | cons p rest ih =>
        obtain ⟨n0, ty⟩ := p
        by_cases hl : (rmap.lookup n0).isSome = true
        · have hfu : firstUnbound rmap ((n0, ty) :: rest) = firstUnbound rmap rest := by
            obtain ⟨r2, hr2⟩ := Option.isSome_iff_exists.mp hl
            simp [firstUnbound, hr2]
          rw [hfu] at hn
          obtain ⟨he, hm, hlook⟩ := ih hn
          obtain ⟨r, hr⟩ := Option.isSome_iff_exists.mp hl
          refine ⟨?_, List.mem_cons_of_mem _ hm, hlook⟩
          show (match rmap.lookup n0 with
            | some r =>
                match bindArgs rmap rest with
                | Except.ok tl => Except.ok ((n0, ty, r) :: tl)
                | Except.error e => Except.error e
            | none => Except.error (BindErr.missingRange n0)) = _
          rw [hr, he]
        · have hlook : rmap.lookup n0 = none := by
            cases hcase : rmap.lookup n0 with
            | none => rfl
            | some r => exact absurd (by rw [hcase]; rfl) hl
          have hfu : firstUnbound rmap ((n0, ty) :: rest) = some n0 := by
            simp [firstUnbound, hlook]
          rw [hfu] at hn
          obtain rfl : n0 = n := Option.some.inj hn
          refine ⟨?_, List.mem_cons_self _ _, hlook⟩
          show (match rmap.lookup n0 with
            | some r =>
                match bindArgs rmap rest with
                | Except.ok tl => Except.ok ((n0, ty, r) :: tl)
                | Except.error e => Except.error e
            | none => Except.error (BindErr.missingRange n0)) = _
          rw [hlook]
  · intro hn
    induction params with
    | nil => rfl
    | cons p rest ih =>
        obtain ⟨n0, ty⟩ := p
        by_cases hl : (rmap.lookup n0).isSome = true
        · have hfu : firstUnbound rmap ((n0, ty) :: rest) = firstUnbound rmap rest := by
            obtain ⟨r2, hr2⟩ := Option.isSome_iff_exists.mp hl
            simp [firstUnbound, hr2]
          rw [hfu] at hn
          obtain ⟨r, hr⟩ := Option.isSome_iff_exists.mp hl
          have hok := ih hn
          show ((match rmap.lookup n0 with
            | some r =>
                match bindArgs rmap rest with
                | Except.ok tl => Except.ok ((n0, ty, r) :: tl)
                | Except.error e => Except.error e
            | none => Except.error (BindErr.missingRange n0)) :
              Except BindErr (List (String × B × A))).isOk = true
          rw [hr]
          cases hcase : bindArgs rmap rest with
          | ok tl => rfl
          | error e =>
              rw [hcase] at hok
              exact Bool.noConfusion hok
        · have hlook : rmap.lookup n0 = none := by
            cases hcase : rmap.lookup n0 with
            | none => rfl
            | some r => exact absurd (by rw [hcase]; rfl) hl
          have hfu : firstUnbound rmap ((n0, ty) :: rest) = some n0 := by
            simp [firstUnbound, hlook]
          rw [hfu] at hn
          exact Option.noConfusion hn
  · intro hext
    induction params with
    | nil => rfl
    | cons p rest ih =>
        obtain ⟨n0, ty⟩ := p
        have hn0 : extra.lookup n0 = none :=
          lookup_eq_none_of_not_mem extra n0
            (fun e he heq =>
              hext e he (heq ▸ List.mem_cons_self _ _))
        have hl : (rmap ++ extra).lookup n0 = rmap.lookup n0 := by
          rw [lookup_append, hn0]
          cases rmap.lookup n0 <;> rfl
        have hih : bindArgs (rmap ++ extra) rest = bindArgs rmap rest :=
          ih (fun e he hm => hext e he (List.mem_cons_of_mem _ hm))
        show (match (rmap ++ extra).lookup n0 with
          | some r =>
              match bindArgs (rmap ++ extra) rest with
              | Except.ok tl => Except.ok ((n0, ty, r) :: tl)
              | Except.error e => Except.error e
          | none => Except.error (BindErr.missingRange n0)) = _
        rw [hl, hih]
        rfl

/-- Witness for C7: with ranges declared for `a` only, binding parameters
`a, b` fails naming `b`; adding a stray entry `c` to the range map leaves the
binder's result on parameter list `a` unchanged. -/
theorem c7_witness :
    bindArgs [("a", (1 : Nat))] ([("a", 0), ("b", 0)] : List (String × Nat))
      = .error (.missingRange "b") ∧
    bindArgs ([("a", (1 : Nat))] ++ [("c", 2)]) ([("a", 0)] : List (String × Nat))
      = bindArgs [("a", (1 : Nat))] ([("a", 0)] : List (String × Nat)) := by
  refine ⟨?_, ?_⟩
  · exact ((c7_signature_binder [("a", (1 : Nat))] []
      ([("a", 0), ("b", 0)] : List (String × Nat))).1 "b" (by decide)).1
  · exact (c7_signature_binder [("a", (1 : Nat))] [("c", 2)]
      ([("a", 0)] : List (String × Nat))).2.2 (by decide)

end Recuerdame
